import Mathlib

/-! Formal model of the core algorithms of the pokemon-skill repository:
the fuzzy name matcher (split_word, alike_amount, _extract_name) built on
re.split and difflib.SequenceMatcher, and the evolution-chain tree walkers
(find_species_chain, find_final_species_chains). -/

namespace PokemonSkill

set_option maxRecDepth 16000

set_option allowUnsafeReducibility true in
attribute [semireducible] Rat.add Rat.mul Rat.sub Rat.inv


/-- Model of the regex word-character class used by split_word's pattern,
on the ASCII range: letters, digits and underscore. -/
def isWordChar (c : Char) : Bool := c.isAlphanum || c = '_'

/-- Model of re.split applied with the non-word-run pattern of split_word:
maximal runs of non-word characters separate the tokens; empty tokens at the
boundaries are kept, exactly as re.split keeps them. -/
def splitCharsAux : List Char → List String
  | [] => [""]
  | c :: cs =>
    if isWordChar c then
      match splitCharsAux cs with
      | [] => [String.mk [c]]
      | t :: ts => String.mk (c :: t.data) :: ts
    else
      match cs with
      | [] => "" :: splitCharsAux cs
      | c2 :: _ => if isWordChar c2 then "" :: splitCharsAux cs else splitCharsAux cs

/-- Source split_word: re.split of the string on runs of non-word characters. -/
def split_word (s : String) : List String := splitCharsAux s.data

/-- Length of the longest common prefix of two character lists. -/
def commonPrefixLen : List Char → List Char → Nat
  | c :: cs, d :: ds => if c = d then commonPrefixLen cs ds + 1 else 0
  | _, _ => 0

/-- Model of SequenceMatcher.find_longest_match on junk-free inputs: among all
matching blocks (i, j, k) it returns one with maximal k, among those the one
with minimal i, and among those the one with minimal j. -/
def findLongestMatch (a b : List Char) : Nat × Nat × Nat :=
  List.foldl (fun best i =>
      List.foldl (fun best j =>
          let k := commonPrefixLen (a.drop i) (b.drop j)
          if best.2.2 < k then (i, j, k) else best)
        best (List.range b.length))
    (0, 0, 0) (List.range a.length)

/-- Total size of the matching blocks of SequenceMatcher.get_matching_blocks,
computed by the recursive divide at the longest match.  The fuel bounds the
recursion depth; a.length + b.length always suffices because every recursive
call strictly shrinks the combined length of the two lists. -/
def matchTotalF : Nat → List Char → List Char → Nat
  | 0, _, _ => 0
  | fuel + 1, a, b =>
    let m := findLongestMatch a b
    if m.2.2 = 0 then 0
    else
      matchTotalF fuel (a.take m.1) (b.take m.2.1) + m.2.2 +
        matchTotalF fuel (a.drop (m.1 + m.2.2)) (b.drop (m.2.1 + m.2.2))

/-- Total matched size between two character lists. -/
def matchTotal (a b : List Char) : Nat := matchTotalF (a.length + b.length) a b

/-- Model of SequenceMatcher(None, a, b).ratio(): 2*M/T where M is the total
matched size and T the combined length, and 1 when both strings are empty,
mirroring difflib's _calculate_ratio. -/
def ratioQ (a b : String) : ℚ :=
  if a.data.length + b.data.length = 0 then 1
  else mkRat (2 * (matchTotal a.data b.data : Int)) (a.data.length + b.data.length)

/-- Model of the token-scanning loop inside alike_amount, returning the sum of
the ratios recorded from this point on.  The candidate word is fetched with a
bounds-checked lookup: a none result corresponds to the IndexError that the
Python expression split_name[name_index] would raise. -/
def scanO : List String → List String → Nat → Option ℚ
  | [], _, _ => some 0
  | s :: rest, words, j =>
    match words[j]? with
    | none => none
    | some w =>
      let e := ratioQ w s
      if mkRat 7 10 < e then
        if words.length ≤ j + 1 then some e
        else
          match scanO rest words (j + 1) with
          | none => none
          | some q => some (e + q)
      else if 0 < j then some 0
      else if words.length ≤ j then some 0
      else scanO rest words j

/-- Source alike_amount: the sum of the similarity ratios recorded by the
forward scan of the utterance tokens over the candidate's word list. -/
def alike_amount (split : List String) (pokemon_name : String) : ℚ :=
  (scanO split (split_word pokemon_name) 0).getD 0

/-- Model of Python str.split with separator "-": split at every hyphen,
keeping empty pieces. -/
def splitSepAux : List Char → List String
  | [] => [""]
  | c :: cs =>
    if c = '-' then "" :: splitSepAux cs
    else
      match splitSepAux cs with
      | [] => [String.mk [c]]
      | t :: ts => String.mk (c :: t.data) :: ts

/-- name_element.split("-") from _extract_name. -/
def splitHyphen (s : String) : List String := splitSepAux s.data

/-- The per-candidate combined score computed inside _extract_name:
0.25 times the sum of alike_amount over the hyphen-separated sub-names,
plus alike_amount of the whole candidate. -/
def combined_amount (split : List String) (name_element : String) : ℚ :=
  mkRat 1 4 * ((splitHyphen name_element).map (fun n => alike_amount split n)).sum
    + alike_amount split name_element

/-- One step of _extract_name's best-candidate fold: a strict improvement on
the running best score replaces the tracked name. -/
def pickStep (split : List String) (acc : Option String × ℚ) (name_element : String) :
    Option String × ℚ :=
  if acc.2 < combined_amount split name_element
  then (some name_element, combined_amount split name_element) else acc

/-- Source _extract_name (the resolve operation): a linear scan keeping the
first-seen maximum combined score, then the final gate
"if not name or alike <= 1.0: return None". -/
def extract_name (utterance : String) (names : List String) : Option String :=
  match List.foldl (pickStep (split_word utterance)) (none, 0) names with
  | (none, _) => none
  | (some name, alike) => if name = "" ∨ alike ≤ 1 then none else some name

/-- An evolution-chain node: the species name and the ordered evolves_to
children, as read by the attr helper on the fetched record. -/
inductive Chain where
  | mk (speciesName : String) (evolvesTo : List Chain)
deriving Repr

/-- attr(chain, "species.name"). -/
def Chain.speciesName : Chain → String
  | Chain.mk sp _ => sp

/-- attr(chain, "evolves_to"). -/
def Chain.evolvesTo : Chain → List Chain
  | Chain.mk _ ch => ch

mutual
/-- Source find_species_chain: the pair (chain before the species, chain of
the species), with absence encoded as none. -/
def find_species_chain (chain : Chain) (name_of_species : String) :
    Option Chain × Option Chain :=
  match chain with
  | Chain.mk sp children =>
    if sp = name_of_species then (none, some (Chain.mk sp children))
    else findAux (Chain.mk sp children) children name_of_species
/-- The for-loop of find_species_chain over the evolves_to list: a child whose
species name matches is returned with the current chain; otherwise the
recursive result is propagated when both its components are present
(the truthiness test "if r[0] and r[1]"). -/
def findAux (cur : Chain) (l : List Chain) (name_of_species : String) :
    Option Chain × Option Chain :=
  match l with
  | [] => (none, none)
  | child :: rest =>
    if child.speciesName = name_of_species then (some cur, some child)
    else
      let r := find_species_chain child name_of_species
      if r.1.isSome && r.2.isSome then r
      else findAux cur rest name_of_species
end

mutual
/-- Source find_final_species_chains: the list of final-most evolutions
reachable from the chain, a childless chain being itself final. -/
def find_final_species_chains (chain : Chain) : List Chain :=
  match chain with
  | Chain.mk sp children =>
    if children.isEmpty then [Chain.mk sp children]
    else finalOfList children
/-- The extend-loop of find_final_species_chains over evolves_to. -/
def finalOfList (l : List Chain) : List Chain :=
  match l with
  | [] => []
  | child :: rest => find_final_species_chains child ++ finalOfList rest
end

mutual
/-- The nodes of a chain's subtree in depth-first pre-order. -/
def preorder (chain : Chain) : List Chain :=
  match chain with
  | Chain.mk sp children => Chain.mk sp children :: preorderList children
def preorderList (l : List Chain) : List Chain :=
  match l with
  | [] => []
  | child :: rest => preorder child ++ preorderList rest
end

mutual
/-- The (parent, child) pairs of the tree in the order in which
find_species_chain's search examines them: for each child of the current node
in declaration order, first the pair at the current node, then the pairs of
the child's own subtree. -/
def dfsPairs (chain : Chain) : List (Chain × Chain) :=
  match chain with
  | Chain.mk sp children => dfsPairsList (Chain.mk sp children) children
def dfsPairsList (cur : Chain) (l : List Chain) : List (Chain × Chain) :=
  match l with
  | [] => []
  | child :: rest => (cur, child) :: (dfsPairs child ++ dfsPairsList cur rest)
end

/-- Reading of a search result over parent/child pairs: absence as a pair of
nones, a hit as the pair of its components. -/
def pairResult : Option (Chain × Chain) → Option Chain × Option Chain
  | none => (none, none)
  | some pr => (some pr.1, some pr.2)

/-- State of the alignment scan as the specification describes it: the word
pointer j, the running sum of recorded ratios, and whether the scan stopped. -/
structure ScanState where
  j : Nat
  total : ℚ
  stopped : Bool

/-- One step of the alignment scan written from the specification's words:
if the scan has stopped nothing changes; if the pointer has reached the end of
the candidate word list the scan stops; otherwise the token's ratio against
the j-th candidate word is recorded and j advanced when it exceeds 0.7, and a
failed ratio after at least one match (j > 0) stops the scan. -/
def specStep (words : List String) (st : ScanState) (tok : String) : ScanState :=
  if st.stopped then st
  else if st.j < words.length then
    let r := ratioQ (words.getD st.j "") tok
    if (7 : ℚ)/10 < r then ⟨st.j + 1, st.total + r, false⟩
    else if 0 < st.j then ⟨st.j, st.total, true⟩
    else st
  else ⟨st.j, st.total, true⟩

/-- The specification's per-candidate alignment score: fold the scan step over
the utterance tokens from pointer 0 and read off the sum of recorded ratios. -/
def specAlign (toks : List String) (words : List String) : ℚ :=
  (List.foldl (specStep words) ⟨0, 0, false⟩ toks).total

theorem splitCharsAux_ne_nil (l : List Char) : splitCharsAux l ≠ [] := by
  induction l with
  | nil => simp [splitCharsAux]
  | cons c cs ih =>
    simp only [splitCharsAux]
    by_cases hw : isWordChar c
    · simp only [hw, if_true]
      cases h : splitCharsAux cs <;> simp
    · simp only [hw, if_false, Bool.false_eq_true]
      cases cs with
      | nil => simp
      | cons c2 cs2 => by_cases h2 : isWordChar c2 <;> simp [h2, ih]

theorem split_word_ne_nil (s : String) : split_word s ≠ [] :=
  splitCharsAux_ne_nil s.data

theorem split_word_length_pos (s : String) : 0 < (split_word s).length :=
  List.length_pos.mpr (split_word_ne_nil s)

/-- The loop of alike_amount never indexes out of bounds: as long as the word
pointer starts in range, the scan produces a value (the IndexError branch is
unreachable). -/
theorem scanO_total (toks words : List String) (j : Nat) (h : j < words.length) :
    ∃ q, scanO toks words j = some q := by
  induction toks generalizing j with
  | nil => exact ⟨0, rfl⟩
  | cons s rest ih =>
    have hget : words[j]? = some words[j] := List.getElem?_eq_getElem h
    simp only [scanO, hget]
    by_cases hr : mkRat 7 10 < ratioQ words[j] s
    · simp only [hr, if_true]
      by_cases hend : words.length ≤ j + 1
      · refine ⟨ratioQ words[j] s, ?_⟩
        simp [hend]
      · obtain ⟨q, hq⟩ := ih (j + 1) (by omega)
        refine ⟨ratioQ words[j] s + q, ?_⟩
        simp [hend, hq]
    · simp only [hr, if_false]
      by_cases hj : 0 < j
      · exact ⟨0, by simp [hj]⟩
      · have : ¬ words.length ≤ j := by omega
        obtain ⟨q, hq⟩ := ih j h
        exact ⟨q, by simp [hj, this, hq]⟩

theorem scanO_alike (toks : List String) (name : String) :
    scanO toks (split_word name) 0 = some (alike_amount toks name) := by
  obtain ⟨q, hq⟩ := scanO_total toks (split_word name) 0 (split_word_length_pos name)
  simp [alike_amount, hq]

theorem bar_eq : (mkRat 7 10 : ℚ) = (7 : ℚ)/10 := by
  norm_num [Rat.mkRat_eq_div]

theorem quarter_eq : (mkRat 1 4 : ℚ) = (1/4 : ℚ) := by
  norm_num [Rat.mkRat_eq_div]

theorem specStep_stopped (words : List String) (toks : List String) (j : Nat) (t : ℚ) :
    (List.foldl (specStep words) ⟨j, t, true⟩ toks).total = t := by
  induction toks generalizing j t with
  | nil => rfl
  | cons s rest ih => simpa [specStep] using ih j t

theorem specStep_out (words : List String) (toks : List String) (j : Nat) (t : ℚ)
    (h : words.length ≤ j) :
    (List.foldl (specStep words) ⟨j, t, false⟩ toks).total = t := by
  cases toks with
  | nil => rfl
  | cons s rest =>
    have : ¬ j < words.length := by omega
    simpa [specStep, this] using specStep_stopped words rest j t

/-- The specification's fold computes exactly what the source loop computes:
starting at pointer j with accumulated total t, it ends with t plus the sum
the loop returns. -/
theorem specStep_scanO (toks words : List String) (j : Nat) (t q : ℚ)
    (hj : j < words.length) (hscan : scanO toks words j = some q) :
    (List.foldl (specStep words) ⟨j, t, false⟩ toks).total = t + q := by
  induction toks generalizing j t q with
  | nil =>
    simp only [scanO, Option.some.injEq] at hscan
    simp [← hscan]
  | cons s rest ih =>
    have hget : words[j]? = some words[j] := List.getElem?_eq_getElem hj
    have hgetD : words.getD j "" = words[j] := by
      simp [List.getD, hget]
    simp only [scanO, hget] at hscan
    rw [List.foldl_cons]
    by_cases hr : mkRat 7 10 < ratioQ words[j] s
    · have hr7 : (7 : ℚ)/10 < ratioQ words[j] s := bar_eq ▸ hr
      simp only [hr, if_true] at hscan
      have hstep : specStep words ⟨j, t, false⟩ s
          = ⟨j + 1, t + ratioQ words[j] s, false⟩ := by
        simp [specStep, hj, hgetD, hr7]
      rw [hstep]
      by_cases hend : words.length ≤ j + 1
      · simp only [hend, if_true, Option.some.injEq] at hscan
        rw [specStep_out words rest (j + 1) (t + ratioQ words[j] s) hend, hscan]
      · simp only [hend, if_false] at hscan
        cases hrec : scanO rest words (j + 1) with
        | none => simp [hrec] at hscan
        | some q2 =>
          simp only [hrec, Option.some.injEq] at hscan
          rw [ih (j + 1) (t + ratioQ words[j] s) q2 (by omega) hrec, ← hscan]
          ring
    · have hr7 : ¬ (7 : ℚ)/10 < ratioQ words[j] s := bar_eq ▸ hr
      simp only [hr, if_false] at hscan
      by_cases hzero : 0 < j
      · simp only [hzero, if_true, Option.some.injEq] at hscan
        have hstep : specStep words ⟨j, t, false⟩ s = ⟨j, t, true⟩ := by
          simp [specStep, hj, hgetD, hr7, hzero]
        rw [hstep, specStep_stopped words rest j t, ← hscan, add_zero]
      · have hnotout : ¬ words.length ≤ j := by omega
        simp only [hzero, if_false, hnotout] at hscan
        have hstep : specStep words ⟨j, t, false⟩ s = ⟨j, t, false⟩ := by
          simp [specStep, hj, hgetD, hr7, hzero]
        rw [hstep]
        exact ih j t q hj hscan

/-- The specification's alignment score coincides with the source's
alike_amount on every utterance-token list and candidate name. -/
theorem specAlign_eq_alike (toks : List String) (name : String) :
    specAlign toks (split_word name) = alike_amount toks name := by
  have h := specStep_scanO toks (split_word name) 0 0 (alike_amount toks name)
    (split_word_length_pos name) (scanO_alike toks name)
  simpa [specAlign] using h

/-- When a list of characters begins with a word character, the first token of
the split is non-empty. -/
theorem splitCharsAux_head_word (c : Char) (cs : List Char) (hw : isWordChar c) :
    ∃ t ts, splitCharsAux (c :: cs) = t :: ts ∧ t ≠ "" := by
  simp only [splitCharsAux, hw, if_true]
  cases h : splitCharsAux cs with
  | nil => exact ⟨String.mk [c], [], rfl, by simp [String.ext_iff]⟩
  | cons t ts => exact ⟨String.mk (c :: t.data), ts, rfl, by simp [String.ext_iff]⟩

/-- Tokens strictly inside the split are never empty: an empty token can only
be the first or the last one. -/
theorem splitCharsAux_inner_ne_empty (l : List Char) :
    ∀ t ∈ ((splitCharsAux l).drop 1).dropLast, t ≠ "" := by
  induction l with
  | nil => simp [splitCharsAux]
  | cons c cs ih =>
    by_cases hw : isWordChar c
    · simp only [splitCharsAux, hw, if_true]
      cases h : splitCharsAux cs with
      | nil => simp
      | cons t ts =>
        intro x hx
        refine ih x ?_
        rw [h]
        simpa using hx
    · simp only [splitCharsAux, hw, if_false, Bool.false_eq_true]
      cases cs with
      | nil => simp [splitCharsAux]
      | cons c2 cs2 =>
        by_cases h2 : isWordChar c2
        · simp only [h2, if_true]
          obtain ⟨t, ts, hsplit, ht⟩ := splitCharsAux_head_word c2 cs2 h2
          rw [hsplit]
          intro x hx
          simp only [List.drop_succ_cons, List.drop_zero] at hx
          cases ts with
          | nil => simp at hx
          | cons u us =>
            rw [List.dropLast_cons₂] at hx
            rcases List.mem_cons.mp hx with hxa | hxb
            · rw [hxa]; exact ht
            · refine ih x ?_
              rw [hsplit]
              simpa using hxb
        · simpa [h2] using ih

/-- Every token produced by the split consists of word characters only. -/
theorem splitCharsAux_all_word (l : List Char) :
    ∀ t ∈ splitCharsAux l, t.data.all isWordChar = true := by
  induction l with
  | nil => simp [splitCharsAux]
  | cons c cs ih =>
    by_cases hw : isWordChar c
    · simp only [splitCharsAux, hw, if_true]
      cases h : splitCharsAux cs with
      | nil => simp [hw]
      | cons t ts =>
        intro x hx
        rcases List.mem_cons.mp hx with hxa | hxb
        · subst hxa
          simp only [List.all_cons, hw, Bool.true_and]
          have := ih t (by rw [h]; exact List.mem_cons_self t ts)
          simpa using this
        · exact ih x (by rw [h]; exact List.mem_cons_of_mem t hxb)
    · simp only [splitCharsAux, hw, if_false, Bool.false_eq_true]
      cases cs with
      | nil =>
        intro x hx
        rcases List.mem_cons.mp hx with hxa | hxb
        · subst hxa; simp
        · have hx0 : x = "" := by simpa [splitCharsAux] using hxb
          subst hx0; simp
      | cons c2 cs2 =>
        by_cases h2 : isWordChar c2
        · simp only [h2, if_true]
          intro x hx
          rcases List.mem_cons.mp hx with hxa | hxb
          · subst hxa; simp
          · exact ih x hxb
        · simpa [h2] using ih

theorem commonPrefixLen_le_left (l1 l2 : List Char) :
    commonPrefixLen l1 l2 ≤ l1.length := by
  induction l1 generalizing l2 with
  | nil => simp [commonPrefixLen]
  | cons c cs ih =>
    cases l2 with
    | nil => simp [commonPrefixLen]
    | cons d ds =>
      simp only [commonPrefixLen, List.length_cons]
      by_cases h : c = d
      · simpa [h] using ih ds
      · simp [h]

theorem commonPrefixLen_le_right (l1 l2 : List Char) :
    commonPrefixLen l1 l2 ≤ l2.length := by
  induction l1 generalizing l2 with
  | nil => simp [commonPrefixLen]
  | cons c cs ih =>
    cases l2 with
    | nil => simp [commonPrefixLen]
    | cons d ds =>
      simp only [commonPrefixLen, List.length_cons]
      by_cases h : c = d
      · simpa [h] using ih ds
      · simp [h]

theorem foldl_inv {α β : Type} (P : α → Prop) (f : α → β → α) (l : List β) (a : α)
    (h0 : P a) (hstep : ∀ x b, b ∈ l → P x → P (f x b)) : P (List.foldl f a l) := by
  induction l generalizing a with
  | nil => exact h0
  | cons x xs ih =>
    exact ih (f a x) (hstep a x (List.mem_cons_self x xs) h0)
      (fun y b hb hy => hstep y b (List.mem_cons_of_mem x hb) hy)

/-- The block returned by the longest-match search stays inside both lists. -/
theorem findLongestMatch_bounds (a b : List Char) :
    (findLongestMatch a b).1 + (findLongestMatch a b).2.2 ≤ a.length ∧
      (findLongestMatch a b).2.1 + (findLongestMatch a b).2.2 ≤ b.length := by
  unfold findLongestMatch
  refine foldl_inv
    (fun best : Nat × Nat × Nat =>
      best.1 + best.2.2 ≤ a.length ∧ best.2.1 + best.2.2 ≤ b.length)
    _ _ _ (by simp) ?_
  intro best i hi hbest
  refine foldl_inv
    (fun best : Nat × Nat × Nat =>
      best.1 + best.2.2 ≤ a.length ∧ best.2.1 + best.2.2 ≤ b.length)
    _ _ _ hbest ?_
  intro x j hj hx
  simp only
  by_cases hlt : x.2.2 < commonPrefixLen (a.drop i) (b.drop j)
  · have hia : i < a.length := List.mem_range.mp hi
    have hjb : j < b.length := List.mem_range.mp hj
    have h1 : commonPrefixLen (a.drop i) (b.drop j) ≤ a.length - i := by
      simpa using commonPrefixLen_le_left (a.drop i) (b.drop j)
    have h2 : commonPrefixLen (a.drop i) (b.drop j) ≤ b.length - j := by
      simpa using commonPrefixLen_le_right (a.drop i) (b.drop j)
    simp only [hlt, if_true]
    exact ⟨by omega, by omega⟩
  · simpa [hlt] using hx

/-- Twice the total matched size never exceeds the combined length. -/
theorem matchTotalF_le (fuel : Nat) (a b : List Char) :
    2 * matchTotalF fuel a b ≤ a.length + b.length := by
  induction fuel generalizing a b with
  | zero => simp [matchTotalF]
  | succ fuel ih =>
    simp only [matchTotalF]
    by_cases hk : (findLongestMatch a b).2.2 = 0
    · simp [hk]
    · simp only [hk, if_false]
      obtain ⟨hba, hbb⟩ := findLongestMatch_bounds a b
      have h1 := ih (a.take (findLongestMatch a b).1) (b.take (findLongestMatch a b).2.1)
      have h2 := ih (a.drop ((findLongestMatch a b).1 + (findLongestMatch a b).2.2))
        (b.drop ((findLongestMatch a b).2.1 + (findLongestMatch a b).2.2))
      simp only [List.length_take, List.length_drop] at h1 h2
      omega

/-- ratioQ, rewritten from the mkRat normal form into field division. -/
theorem ratioQ_eq (a b : String) :
    ratioQ a b = if a.data.length + b.data.length = 0 then 1
      else 2 * (matchTotal a.data b.data : ℚ)
        / ((a.data.length : ℚ) + (b.data.length : ℚ)) := by
  rw [ratioQ]
  by_cases h : a.data.length + b.data.length = 0
  · rw [if_pos h, if_pos h]
  · rw [if_neg h, if_neg h, Rat.mkRat_eq_div]
    push_cast
    ring

theorem ratioQ_nonneg (a b : String) : 0 ≤ ratioQ a b := by
  rw [ratioQ_eq]
  by_cases h : a.data.length + b.data.length = 0
  · rw [if_pos h]
    norm_num
  · rw [if_neg h]
    apply div_nonneg
    · positivity
    · positivity

theorem ratioQ_le_one (a b : String) : ratioQ a b ≤ 1 := by
  rw [ratioQ_eq]
  by_cases h : a.data.length + b.data.length = 0
  · rw [if_pos h]
  · rw [if_neg h]
    have hpos : (0 : ℚ) < (a.data.length : ℚ) + (b.data.length : ℚ) := by
      have : 0 < a.data.length + b.data.length := Nat.pos_of_ne_zero h
      exact_mod_cast this
    rw [div_le_one hpos]
    have := matchTotalF_le (a.data.length + b.data.length) a.data b.data
    have hcast : (2 * matchTotal a.data b.data : ℚ) ≤
        ((a.data.length : ℚ) + (b.data.length : ℚ)) := by
      exact_mod_cast this
    linarith

/-- Bounds of the scan: the sum of recorded ratios is non-negative and, from
pointer j, at most the number of remaining candidate words. -/
theorem scanO_bounds (toks words : List String) (j : Nat) (q : ℚ)
    (hj : j < words.length) (h : scanO toks words j = some q) :
    0 ≤ q ∧ q + j ≤ (words.length : ℚ) := by
  induction toks generalizing j q with
  | nil =>
    simp only [scanO, Option.some.injEq] at h
    subst h
    constructor
    · rfl
    · simpa using (by exact_mod_cast hj.le : (j : ℚ) ≤ (words.length : ℚ))
  | cons s rest ih =>
    have hget : words[j]? = some words[j] := List.getElem?_eq_getElem hj
    simp only [scanO, hget] at h
    have he0 : 0 ≤ ratioQ words[j] s := ratioQ_nonneg _ _
    have he1 : ratioQ words[j] s ≤ 1 := ratioQ_le_one _ _
    by_cases hr : mkRat 7 10 < ratioQ words[j] s
    · simp only [hr, if_true] at h
      by_cases hend : words.length ≤ j + 1
      · simp only [hend, if_true, Option.some.injEq] at h
        subst h
        have hcast : ((j : ℚ) + 1) ≤ (words.length : ℚ) := by exact_mod_cast hj
        exact ⟨he0, by linarith⟩
      · simp only [hend, if_false] at h
        cases hrec : scanO rest words (j + 1) with
        | none => simp [hrec] at h
        | some q2 =>
          simp only [hrec, Option.some.injEq] at h
          obtain ⟨hq0, hqle⟩ := ih (j + 1) q2 (by omega) hrec
          push_cast at hqle ⊢
          subst h
          exact ⟨by linarith, by linarith⟩
    · simp only [hr, if_false] at h
      by_cases hzero : 0 < j
      · simp only [hzero, if_true, Option.some.injEq] at h
        subst h
        have hcast : (j : ℚ) ≤ (words.length : ℚ) := by exact_mod_cast hj.le
        exact ⟨le_refl 0, by linarith⟩
      · have hnotout : ¬ words.length ≤ j := by omega
        simp only [hzero, if_false, hnotout] at h
        exact ih j q hj h

theorem alike_amount_nonneg (toks : List String) (name : String) :
    0 ≤ alike_amount toks name :=
  (scanO_bounds toks (split_word name) 0 (alike_amount toks name)
    (split_word_length_pos name) (scanO_alike toks name)).1

theorem alike_amount_le (toks : List String) (name : String) :
    alike_amount toks name ≤ ((split_word name).length : ℚ) := by
  have h := (scanO_bounds toks (split_word name) 0 (alike_amount toks name)
    (split_word_length_pos name) (scanO_alike toks name)).2
  simpa using h

theorem le_foldl_max (l : List ℚ) (q : ℚ) : q ≤ List.foldl max q l := by
  induction l generalizing q with
  | nil => exact le_refl q
  | cons x xs ih => exact le_trans (le_max_left q x) (ih (max q x))

theorem foldl_max_le_elem (l : List ℚ) (q x : ℚ) (hx : x ∈ l) :
    x ≤ List.foldl max q l := by
  induction l generalizing q with
  | nil => simp at hx
  | cons y ys ih =>
    rcases List.mem_cons.mp hx with h | h
    · subst h
      exact le_trans (le_max_right q x) (le_foldl_max ys (max q x))
    · rw [List.foldl_cons]
      exact ih (max q y) h

theorem foldl_max_attained (l : List ℚ) (q : ℚ) :
    List.foldl max q l = q ∨ List.foldl max q l ∈ l := by
  induction l generalizing q with
  | nil => exact Or.inl rfl
  | cons y ys ih =>
    rcases ih (max q y) with h | h
    · rcases max_choice q y with hq | hy
      · exact Or.inl (by rw [List.foldl_cons, h, hq])
      · exact Or.inr (by rw [List.foldl_cons, h, hy]; exact List.mem_cons_self y ys)
    · exact Or.inr (List.mem_cons_of_mem y h)

theorem find?_congr_all {α : Type} (l : List α) (p1 p2 : α → Bool)
    (h : ∀ x ∈ l, p1 x = p2 x) : l.find? p1 = l.find? p2 := by
  induction l with
  | nil => rfl
  | cons x xs ih =>
    have hx := h x (List.mem_cons_self x xs)
    cases h1 : p1 x with
    | true => rw [List.find?_cons_of_pos _ h1, List.find?_cons_of_pos _ (hx ▸ h1)]
    | false =>
      rw [List.find?_cons_of_neg _ (by simp [h1]), List.find?_cons_of_neg _ (by simp [← hx, h1])]
      exact ih (fun y hy => h y (List.mem_cons_of_mem x hy))

/-- If no remaining candidate strictly beats the running best score, the fold
leaves the accumulator unchanged. -/
theorem foldl_pick_stable (split : List String) (l : List String)
    (a : Option String × ℚ) (h : ∀ m ∈ l, combined_amount split m ≤ a.2) :
    List.foldl (pickStep split) a l = a := by
  induction l with
  | nil => rfl
  | cons x xs ih =>
    have hx : ¬ a.2 < combined_amount split x :=
      not_lt.mpr (h x (List.mem_cons_self x xs))
    rw [List.foldl_cons, pickStep, if_neg hx]
    exact ih (fun m hm => h m (List.mem_cons_of_mem x hm))
/-- Characterization of _extract_name's selection fold: it returns the first
candidate that strictly beats the initial score and attains the overall
maximum, or the initial accumulator when no candidate strictly improves. -/
theorem pick_foldl_char (split : List String) (names : List String)
    (a : Option String × ℚ) :
    List.foldl (pickStep split) a names =
      match names.find? (fun n => decide (a.2 < combined_amount split n)
          && decide ((names.map (combined_amount split)).foldl max a.2
            ≤ combined_amount split n)) with
      | some n => (some n, combined_amount split n)
      | none => a := by
  induction names generalizing a with
  | nil => rfl
  | cons n rest ih =>
    have hmap : (n :: rest).map (combined_amount split)
        = combined_amount split n :: rest.map (combined_amount split) := rfl
    rw [List.find?_cons]
    by_cases hlt : a.2 < combined_amount split n
    · by_cases hM : ((n :: rest).map (combined_amount split)).foldl max a.2
          ≤ combined_amount split n
      · -- the head is the first strict improvement attaining the maximum
        have hp : (decide (a.2 < combined_amount split n)
            && decide (((n :: rest).map (combined_amount split)).foldl max a.2
              ≤ combined_amount split n)) = true := by
          simp only [Bool.and_eq_true, decide_eq_true_eq]
          exact ⟨hlt, hM⟩
        rw [hp]
        have hrest : ∀ m ∈ rest, combined_amount split m
            ≤ (some n, combined_amount split n).2 := by
          intro m hm
          refine le_trans ?_ hM
          exact foldl_max_le_elem _ _ _
            (List.mem_map_of_mem (combined_amount split) (List.mem_cons_of_mem n hm))
        have hstable := foldl_pick_stable split rest (some n, combined_amount split n) hrest
        rw [List.foldl_cons, pickStep, if_pos hlt]
        exact hstable
      · -- the head improves but is not maximal: the winner is further right
        have hp : (decide (a.2 < combined_amount split n)
            && decide (((n :: rest).map (combined_amount split)).foldl max a.2
              ≤ combined_amount split n)) = false := by
          rw [decide_eq_false hM, Bool.and_false]
        rw [hp]
        rw [List.foldl_cons, pickStep, if_pos hlt, ih (some n, combined_amount split n)]
        have hmax : max a.2 (combined_amount split n) = combined_amount split n :=
          max_eq_right hlt.le
        have hMeq : ((n :: rest).map (combined_amount split)).foldl max a.2
            = (rest.map (combined_amount split)).foldl max (combined_amount split n) := by
          rw [hmap, List.foldl_cons, hmax]
        have hlt2 : combined_amount split n
            < (rest.map (combined_amount split)).foldl max (combined_amount split n) := by
          rw [← hMeq]
          exact lt_of_not_le hM
        have hpr : ∀ m ∈ rest,
            (fun n_1 => decide ((some n, combined_amount split n).2 < combined_amount split n_1)
              && decide ((rest.map (combined_amount split)).foldl max
                  (some n, combined_amount split n).2 ≤ combined_amount split n_1)) m
            = (fun n_1 => decide (a.2 < combined_amount split n_1)
              && decide (((n :: rest).map (combined_amount split)).foldl max a.2
                ≤ combined_amount split n_1)) m := by
          intro m hm
          simp only [hMeq]
          by_cases hMm : (rest.map (combined_amount split)).foldl max
              (combined_amount split n) ≤ combined_amount split m
          · have h1 : combined_amount split n < combined_amount split m :=
              lt_of_lt_of_le hlt2 hMm
            have h2 : a.2 < combined_amount split m := lt_trans hlt h1
            simp [hMm, h1, h2]
          · simp [hMm]
        rw [find?_congr_all rest _ _ hpr]
        have hfound : ∃ m0, m0 ∈ rest ∧ (fun n_1 => decide (a.2 < combined_amount split n_1)
            && decide (((n :: rest).map (combined_amount split)).foldl max a.2
              ≤ combined_amount split n_1)) m0 = true := by
          rcases foldl_max_attained (rest.map (combined_amount split))
            (combined_amount split n) with h | h
          · exact absurd (h ▸ hlt2) (lt_irrefl _)
          · obtain ⟨m, hm, hfm⟩ := List.mem_map.mp h
            refine ⟨m, hm, ?_⟩
            have h1 : combined_amount split n < combined_amount split m := by
              rw [hfm]
              exact hlt2
            have h2 : a.2 < combined_amount split m := lt_trans hlt h1
            have h3 : ((n :: rest).map (combined_amount split)).foldl max a.2
                ≤ combined_amount split m := by
              rw [hMeq, hfm]
            simp only [decide_eq_true_eq, Bool.and_eq_true]
            exact ⟨h2, h3⟩
        obtain ⟨m0, hm0, hpm0⟩ := hfound
        cases hfind : rest.find? (fun n_1 => decide (a.2 < combined_amount split n_1)
            && decide (((n :: rest).map (combined_amount split)).foldl max a.2
              ≤ combined_amount split n_1)) with
        | none =>
          exact absurd hpm0 (by simpa using List.find?_eq_none.mp hfind m0 hm0)
        | some m => rfl
    · -- the head does not improve on the initial score
      have hp : (decide (a.2 < combined_amount split n)
          && decide (((n :: rest).map (combined_amount split)).foldl max a.2
            ≤ combined_amount split n)) = false := by
        rw [decide_eq_false hlt, Bool.false_and]
      rw [hp]
      rw [List.foldl_cons, pickStep, if_neg hlt, ih a]
      have hmax : max a.2 (combined_amount split n) = a.2 := max_eq_left (not_lt.mp hlt)
      have hMeq : ((n :: rest).map (combined_amount split)).foldl max a.2
          = (rest.map (combined_amount split)).foldl max a.2 := by
        rw [hmap, List.foldl_cons, hmax]
      have hpr : ∀ m ∈ rest,
          (fun n_1 => decide (a.2 < combined_amount split n_1)
            && decide ((rest.map (combined_amount split)).foldl max a.2
              ≤ combined_amount split n_1)) m
          = (fun n_1 => decide (a.2 < combined_amount split n_1)
            && decide (((n :: rest).map (combined_amount split)).foldl max a.2
              ≤ combined_amount split n_1)) m := by
        intro m hm
        simp only [hMeq]
      rw [find?_congr_all rest _ _ hpr]

/-- Structural induction over chains with the inductive hypothesis available
for every member of the evolves_to list. -/
theorem chain_ind (P : Chain → Prop)
    (step : ∀ sp children, (∀ c ∈ children, P c) → P (Chain.mk sp children)) :
    ∀ c, P c := by
  have H : ∀ n c, sizeOf c ≤ n → P c := by
    intro n
    induction n with
    | zero =>
      intro c hc
      cases c with
      | mk sp children =>
        rw [Chain.mk.sizeOf_spec] at hc
        omega
    | succ n ih =>
      intro c hc
      cases c with
      | mk sp children =>
        refine step sp children ?_
        intro x hx
        refine ih x ?_
        have h1 : sizeOf x < sizeOf children := List.sizeOf_lt_of_mem hx
        rw [Chain.mk.sizeOf_spec] at hc
        omega
  exact fun c => H (sizeOf c) c (le_refl _)

theorem preorder_cons (c : Chain) : preorder c = c :: preorderList c.evolvesTo := by
  cases c
  rfl

/-- The loop of find_species_chain only ever produces the empty pair or a
fully populated pair. -/
theorem findAux_shape (cur : Chain) (l : List Chain) (t : String) :
    findAux cur l t = (none, none) ∨ ∃ p m, findAux cur l t = (some p, some m) := by
  induction l with
  | nil => exact Or.inl rfl
  | cons child rest ih =>
    by_cases hname : child.speciesName = t
    · exact Or.inr ⟨cur, child, by rw [findAux, if_pos hname]⟩
    · rw [findAux, if_neg hname]
      by_cases hb : (find_species_chain child t).1.isSome
          && (find_species_chain child t).2.isSome
      · simp only [hb, if_true]
        rw [Bool.and_eq_true] at hb
        obtain ⟨h1, h2⟩ := hb
        obtain ⟨p, hp⟩ := Option.isSome_iff_exists.mp h1
        obtain ⟨m, hm⟩ := Option.isSome_iff_exists.mp h2
        refine Or.inr ⟨p, m, ?_⟩
        rw [show find_species_chain child t
            = ((find_species_chain child t).1, (find_species_chain child t).2) from rfl,
          hp, hm]
      · simp only [hb, if_false]
        exact ih

theorem find_species_chain_root (c : Chain) (t : String) (h : c.speciesName = t) :
    find_species_chain c t = (none, some c) := by
  cases c with
  | mk sp children =>
    have h2 : sp = t := h
    rw [find_species_chain, if_pos h2]

theorem find_species_chain_notroot (c : Chain) (t : String) (h : ¬ c.speciesName = t) :
    find_species_chain c t = findAux c c.evolvesTo t := by
  cases c with
  | mk sp children =>
    have h2 : ¬ sp = t := h
    rw [find_species_chain, if_neg h2]
    rfl

/-- The loop of find_species_chain is the first hit over the pair list of the
examination order. -/
theorem findAux_pairs (cur : Chain) (l : List Chain) (t : String)
    (hP : ∀ c ∈ l, ¬ c.speciesName = t → find_species_chain c t
      = pairResult ((dfsPairs c).find? (fun pr => pr.2.speciesName == t))) :
    findAux cur l t
      = pairResult ((dfsPairsList cur l).find? (fun pr => pr.2.speciesName == t)) := by
  induction l with
  | nil => rfl
  | cons child rest ih =>
    rw [findAux, dfsPairsList]
    by_cases hname : child.speciesName = t
    · rw [if_pos hname]
      rw [List.find?_cons_of_pos _ (by simpa using hname)]
      rfl
    · rw [if_neg hname]
      rw [List.find?_cons_of_neg _ (by simpa using hname)]
      rw [List.find?_append]
      have hchild := hP child (List.mem_cons_self child rest) hname
      cases hfind : (dfsPairs child).find? (fun pr => pr.2.speciesName == t) with
      | some pr =>
        rw [hfind] at hchild
        rw [hchild]
        rfl
      | none =>
        rw [hfind] at hchild
        rw [hchild]
        exact ih (fun c hc => hP c (List.mem_cons_of_mem child hc))

/-- Outside the root case, find_species_chain returns exactly the first
parent/child pair, in depth-first declaration order, whose child carries the
target species name. -/
theorem find_species_chain_pairs (t : String) :
    ∀ c : Chain, ¬ c.speciesName = t → find_species_chain c t
      = pairResult ((dfsPairs c).find? (fun pr => pr.2.speciesName == t)) := by
  refine chain_ind _ ?_
  intro sp children hIH hne
  rw [find_species_chain_notroot _ _ hne]
  exact findAux_pairs (Chain.mk sp children) children t hIH

/-- The children occurring in the pair list are exactly the non-root nodes of
the subtree, in pre-order. -/
theorem dfsPairsList_snd (cur : Chain) (l : List Chain)
    (hIH : ∀ c ∈ l, (dfsPairs c).map Prod.snd = preorderList c.evolvesTo) :
    (dfsPairsList cur l).map Prod.snd = preorderList l := by
  induction l with
  | nil => rfl
  | cons child rest ihl =>
    rw [dfsPairsList, preorderList, List.map_cons, List.map_append,
      hIH child (List.mem_cons_self child rest),
      ihl (fun c hc => hIH c (List.mem_cons_of_mem child hc)), preorder_cons]
    rfl

theorem dfsPairs_snd :
    ∀ c : Chain, (dfsPairs c).map Prod.snd = preorderList c.evolvesTo := by
  refine chain_ind _ ?_
  intro sp children hIH
  exact dfsPairsList_snd (Chain.mk sp children) children hIH

theorem finalOfList_filter (l : List Chain)
    (hl : ∀ c ∈ l, find_final_species_chains c
      = (preorder c).filter (fun n => n.evolvesTo.isEmpty)) :
    finalOfList l = (preorderList l).filter (fun n => n.evolvesTo.isEmpty) := by
  induction l with
  | nil => rfl
  | cons x xs ihl =>
    rw [finalOfList, preorderList, List.filter_append,
      hl x (List.mem_cons_self x xs), ihl (fun c hc => hl c (List.mem_cons_of_mem x hc))]

theorem final_eq_filter :
    ∀ c : Chain, find_final_species_chains c
      = (preorder c).filter (fun n => n.evolvesTo.isEmpty) := by
  refine chain_ind _ ?_
  intro sp children hIH
  rw [find_final_species_chains, preorder, List.filter_cons]
  cases children with
  | nil => rfl
  | cons c1 rest =>
    simp only [Chain.evolvesTo, List.isEmpty_cons, Bool.false_eq_true, if_false]
    exact finalOfList_filter (c1 :: rest) hIH

theorem final_ne_nil : ∀ c : Chain, find_final_species_chains c ≠ [] := by
  refine chain_ind _ ?_
  intro sp children hIH
  rw [find_final_species_chains]
  cases children with
  | nil => simp
  | cons c1 rest =>
    simp only [List.isEmpty_cons, if_false, Bool.false_eq_true]
    rw [finalOfList]
    exact fun hcon => hIH c1 (List.mem_cons_self c1 rest)
      (List.append_eq_nil.mp hcon).1

theorem foldl_const {α β : Type} (l : List β) (x : α) :
    List.foldl (fun b _ => b) x l = x := by
  induction l generalizing x with
  | nil => rfl
  | cons y ys ih => exact ih x

theorem findLongestMatch_nil (a : List Char) : findLongestMatch a [] = (0, 0, 0) := by
  rw [findLongestMatch]
  simp only [List.length_nil, List.range_zero, List.foldl_nil]
  exact foldl_const _ _

theorem matchTotal_nil (a : List Char) : matchTotal a [] = 0 := by
  rw [matchTotal]
  cases h : a.length + ([] : List Char).length with
  | zero => rfl
  | succ m =>
    rw [matchTotalF]
    simp [findLongestMatch_nil]

theorem ratioQ_empty_right (w : String) (hw : w ≠ "") : ratioQ w "" = 0 := by
  have hdata : w.data ≠ [] := by
    intro h0
    apply hw
    cases w
    simpa [String.ext_iff] using h0
  have hlen : ¬ w.data.length + ("" : String).data.length = 0 := by
    simpa using fun h0 => hdata (List.length_eq_zero.mp h0)
  rw [ratioQ_eq, if_neg hlen]
  rw [show ("" : String).data = [] from rfl, matchTotal_nil]
  norm_num

/-- On the empty utterance the scan of a candidate whose first word-token is
non-empty records nothing. -/
theorem alike_amount_empty_utterance (name : String)
    (h : (split_word name).head? ≠ some "") :
    alike_amount (split_word "") name = 0 := by
  cases hws : split_word name with
  | nil => exact absurd hws (split_word_ne_nil name)
  | cons w ws =>
    have hw : w ≠ "" := by
      intro h0
      exact h (by rw [hws, h0]; rfl)
    have hr : ratioQ w "" = 0 := ratioQ_empty_right w hw
    have hsw : split_word "" = [""] := rfl
    rw [alike_amount, hsw, hws]
    simp only [scanO, List.getElem?_cons_zero, hr]
    rw [bar_eq]
    norm_num [scanO]

/-- On the empty utterance a candidate scores 0 overall whenever its own first
word-token and those of all its hyphen-separated sub-names are non-empty. -/
theorem combined_amount_empty_utterance (name : String)
    (h1 : (split_word name).head? ≠ some "")
    (h2 : ∀ sub ∈ splitHyphen name, (split_word sub).head? ≠ some "") :
    combined_amount (split_word "") name = 0 := by
  rw [combined_amount, alike_amount_empty_utterance name h1]
  have hz : ((splitHyphen name).map (fun n => alike_amount (split_word "") n)).sum = 0 := by
    apply List.sum_eq_zero
    intro x hx
    obtain ⟨sub, hsub, hval⟩ := List.mem_map.mp hx
    rw [← hval]
    exact alike_amount_empty_utterance sub (h2 sub hsub)
  rw [hz]
  norm_num

/-- The fold of _extract_name only ever tracks a candidate from the list. -/
theorem pick_foldl_mem (split : List String) (names : List String)
    (a : Option String × ℚ) (n : String)
    (h : (List.foldl (pickStep split) a names).1 = some n) :
    a.1 = some n ∨ n ∈ names := by
  induction names generalizing a with
  | nil => exact Or.inl h
  | cons x xs ih =>
    rw [List.foldl_cons] at h
    rcases ih (pickStep split a x) h with h1 | h1
    · rw [pickStep] at h1
      by_cases hlt : a.2 < combined_amount split x
      · rw [if_pos hlt] at h1
        simp only [Option.some.injEq] at h1
        exact Or.inr (h1 ▸ List.mem_cons_self x xs)
      · rw [if_neg hlt] at h1
        exact Or.inl h1
    · exact Or.inr (List.mem_cons_of_mem x h1)

/-- pick_foldl_char instantiated at the initial accumulator (None, 0). -/
theorem pick_foldl_zero (split : List String) (names : List String) :
    List.foldl (pickStep split) (none, 0) names =
      match names.find? (fun n => decide ((0 : ℚ) < combined_amount split n)
          && decide ((names.map (combined_amount split)).foldl max 0
            ≤ combined_amount split n)) with
      | some n => (some n, combined_amount split n)
      | none => ((none : Option String), (0 : ℚ)) := by
  exact pick_foldl_char split names (none, 0)

theorem splitSepAux_no_sep (l : List Char) (h : ¬ '-' ∈ l) :
    splitSepAux l = [String.mk l] := by
  induction l with
  | nil => rfl
  | cons c cs ih =>
    have hc : ¬ c = '-' := fun h0 => h (h0 ▸ List.mem_cons_self c cs)
    rw [splitSepAux, if_neg hc, ih (fun h0 => h (List.mem_cons_of_mem c h0))]

theorem splitHyphen_no_hyphen (name : String) (h : ¬ '-' ∈ name.data) :
    splitHyphen name = [name] := by
  rw [splitHyphen, splitSepAux_no_sep name.data h]

/-- A split starting with a non-word character has at least two tokens. -/
theorem splitCharsAux_nonword_two (cs : List Char) :
    ∀ c, ¬ isWordChar c = true → 2 ≤ (splitCharsAux (c :: cs)).length := by
  induction cs with
  | nil =>
    intro c hc
    simp [splitCharsAux, hc]
  | cons c2 cs2 ih =>
    intro c hc
    rw [splitCharsAux]
    simp only [hc, Bool.false_eq_true, if_false]
    by_cases h2 : isWordChar c2
    · simp only [h2, if_true, List.length_cons]
      have := List.length_pos.mpr (splitCharsAux_ne_nil (c2 :: cs2))
      omega
    · simp only [h2, Bool.false_eq_true, if_false]
      exact ih c2 h2

/-- A one-token split can only come from a run of word characters, and the
token is the whole string. -/
theorem splitCharsAux_length_one (l : List Char)
    (h : (splitCharsAux l).length = 1) : splitCharsAux l = [String.mk l] := by
  induction l with
  | nil => rfl
  | cons c cs ih =>
    by_cases hw : isWordChar c
    · simp only [splitCharsAux, hw, if_true] at h ⊢
      cases hcs : splitCharsAux cs with
      | nil => exact absurd hcs (splitCharsAux_ne_nil cs)
      | cons t ts =>
        rw [hcs] at h
        replace h : (String.mk (c :: t.data) :: ts).length = 1 := h
        rw [List.length_cons] at h
        have hts : ts = [] := List.length_eq_zero.mp (by omega)
        subst hts
        have h2 := ih (by rw [hcs]; rfl)
        rw [hcs] at h2
        have ht : t = String.mk cs := (List.cons_eq_cons.mp h2).1
        rw [ht]
    · have := splitCharsAux_nonword_two cs c (by simpa using hw)
      omega

theorem split_word_length_one (s : String) (h : (split_word s).length = 1) :
    split_word s = [s] := by
  have := splitCharsAux_length_one s.data h
  rw [split_word, this]

/-- The scan over a one-word candidate either records nothing or records the
ratio of a single utterance token that cleared the 0.7 bar. -/
theorem scanO_singleton (toks : List String) (w : String) (q : ℚ)
    (h : scanO toks [w] 0 = some q) :
    q = 0 ∨ ∃ tok ∈ toks, q = ratioQ w tok ∧ mkRat 7 10 < q := by
  induction toks with
  | nil =>
    simp only [scanO, Option.some.injEq] at h
    exact Or.inl h.symm
  | cons s rest ih =>
    simp only [scanO, List.getElem?_cons_zero] at h
    by_cases hr : mkRat 7 10 < ratioQ w s
    · rw [if_pos hr, if_pos (by simp)] at h
      simp only [Option.some.injEq] at h
      subst h
      exact Or.inr ⟨s, List.mem_cons_self s rest, rfl, hr⟩
    · rw [if_neg hr, if_neg (by norm_num), if_neg (by simp)] at h
      rcases ih h with h1 | ⟨tok, htok, heq, hgt⟩
      · exact Or.inl h1
      · exact Or.inr ⟨tok, List.mem_cons_of_mem s htok, heq, hgt⟩

/-- Claim C1: for every utterance string and candidate name, the per-candidate
combined score of the matcher equals the specification's left-to-right
alignment scan of the utterance tokens over the candidate's word list — ratios
recorded and the pointer advanced when they exceed 0.7, the scan stopping on a
failed ratio once a word has matched or when the pointer exhausts the words —
plus 0.25 times the sum of the same scan applied to each hyphen-separated
sub-name of the candidate against the same utterance tokens. -/
theorem claim_C1 (utterance name_element : String) :
    combined_amount (split_word utterance) name_element
      = specAlign (split_word utterance) (split_word name_element)
        + (1/4 : ℚ) * ((splitHyphen name_element).map
            (fun sub => specAlign (split_word utterance) (split_word sub))).sum := by
  rw [combined_amount, quarter_eq, specAlign_eq_alike]
  have hmap : (splitHyphen name_element).map
      (fun sub => specAlign (split_word utterance) (split_word sub))
      = (splitHyphen name_element).map
        (fun n => alike_amount (split_word utterance) n) :=
    List.map_congr_left (fun sub _ => specAlign_eq_alike _ _)
  rw [hmap]
  ring

/-- Claim C5 counterexample: re.split keeps empty tokens, so the empty input
string yields a token list containing the empty token. -/
theorem claim_C5_counterexample :
    split_word "" = [""] ∧ ("" : String) ∈ split_word "" := ⟨rfl, by decide⟩

/-- Claim C5 (amended): the tokenizer splits on runs of non-word characters
and every token consists of word characters only, but empty tokens are NOT
discarded: they can occur, though only as the first or the last token, never
strictly inside the token list. -/
theorem claim_C5 (s : String) :
    split_word s ≠ []
      ∧ (∀ t ∈ ((split_word s).drop 1).dropLast, t ≠ "")
      ∧ (∀ t ∈ split_word s, t.data.all isWordChar = true) :=
  ⟨split_word_ne_nil s, splitCharsAux_inner_ne_empty s.data, splitCharsAux_all_word s.data⟩

theorem claim_C5_witness :
    (("b" : String) ∈ ((split_word "a b c").drop 1).dropLast)
      ∧ ("b" : String) ≠ ""
      ∧ ("b" : String).data.all isWordChar = true :=
  ⟨by decide, (claim_C5 "a b c").2.1 "b" (by decide), (claim_C5 "a b c").2.2 "b" (by decide)⟩

/-- Claim C6: on the utterance "rattata alola" with candidates "rattata" and
"rattata-alola", resolve returns "rattata-alola": the hyphenated candidate's
combined score beats both the plain candidate and the 1.0 threshold. -/
theorem claim_C6 :
    extract_name "rattata alola" ["rattata", "rattata-alola"] = some "rattata-alola"
      ∧ combined_amount (split_word "rattata alola") "rattata"
          < combined_amount (split_word "rattata alola") "rattata-alola"
      ∧ 1 < combined_amount (split_word "rattata alola") "rattata-alola" :=
  ⟨rfl, by decide, by decide⟩

/-- Claim C9: find_species_chain never returns a populated parent with an
absent target: every result is the empty pair, the (None, root) pair when the
root matches, or a fully populated pair. -/
theorem claim_C9 (c : Chain) (t : String) :
    find_species_chain c t = (none, none)
      ∨ (find_species_chain c t = (none, some c) ∧ c.speciesName = t)
      ∨ ∃ p m, find_species_chain c t = (some p, some m) := by
  by_cases h : c.speciesName = t
  · exact Or.inr (Or.inl ⟨find_species_chain_root c t h, h⟩)
  · rw [find_species_chain_notroot c t h]
    rcases findAux_shape c c.evolvesTo t with h1 | ⟨p, m, h1⟩
    · exact Or.inl h1
    · exact Or.inr (Or.inr ⟨p, m, h1⟩)

/-- Claim C3: find_species_chain returns (None, root) when the root's species
matches the target; otherwise it returns exactly the first parent/child pair
of the depth-first, declaration-ordered examination sequence whose child
matches the target — the immediate child hit and the propagation of the first
fully-populated recursive result realize precisely that order — and it
returns (None, None) when the target appears nowhere in the tree. -/
theorem claim_C3 (c : Chain) (t : String) :
    (c.speciesName = t → find_species_chain c t = (none, some c))
      ∧ (¬ c.speciesName = t → find_species_chain c t
          = pairResult ((dfsPairs c).find? (fun pr => pr.2.speciesName == t)))
      ∧ (t ∉ (preorder c).map Chain.speciesName →
          find_species_chain c t = (none, none)) := by
  refine ⟨find_species_chain_root c t, find_species_chain_pairs t c, ?_⟩
  intro hnot
  have hroot : ¬ c.speciesName = t := by
    intro h0
    apply hnot
    rw [preorder_cons, List.map_cons, h0]
    exact List.mem_cons_self t _
  rw [find_species_chain_pairs t c hroot]
  have hnone : (dfsPairs c).find? (fun pr => pr.2.speciesName == t) = none := by
    rw [List.find?_eq_none]
    intro pr hpr
    simp only [beq_iff_eq]
    intro h0
    apply hnot
    have hmem : pr.2 ∈ preorderList c.evolvesTo := by
      rw [← dfsPairs_snd c]
      exact List.mem_map_of_mem Prod.snd hpr
    rw [preorder_cons, List.map_cons]
    exact List.mem_cons_of_mem _ (h0 ▸ List.mem_map_of_mem Chain.speciesName hmem)
  rw [hnone]
  rfl

theorem claim_C3_witness :
    find_species_chain (Chain.mk "A" [Chain.mk "B" []]) "A"
        = (none, some (Chain.mk "A" [Chain.mk "B" []]))
      ∧ find_species_chain (Chain.mk "A" [Chain.mk "B" []]) "Z" = (none, none) :=
  ⟨(claim_C3 (Chain.mk "A" [Chain.mk "B" []]) "A").1 rfl,
   (claim_C3 (Chain.mk "A" [Chain.mk "B" []]) "Z").2.2 (by decide)⟩

/-- Claim C4: find_final_species_chains returns exactly the childless nodes of
the subtree in depth-first declaration order, is never empty, and — when the
species names in the subtree are distinct — lists every leaf exactly once. -/
theorem claim_C4 (c : Chain) :
    find_final_species_chains c = (preorder c).filter (fun n => n.evolvesTo.isEmpty)
      ∧ find_final_species_chains c ≠ []
      ∧ (((preorder c).map Chain.speciesName).Nodup →
          (find_final_species_chains c).Nodup) := by
  refine ⟨final_eq_filter c, final_ne_nil c, ?_⟩
  intro hnd
  have h1 : (preorder c).Nodup := List.Nodup.of_map Chain.speciesName hnd
  rw [final_eq_filter c]
  exact List.Nodup.filter _ h1

theorem claim_C4_witness :
    find_final_species_chains
        (Chain.mk "A" [Chain.mk "B" [Chain.mk "C" [], Chain.mk "D" []]])
      = [Chain.mk "C" [], Chain.mk "D" []]
    ∧ (find_final_species_chains
        (Chain.mk "A" [Chain.mk "B" [Chain.mk "C" [], Chain.mk "D" []]])).Nodup :=
  ⟨rfl, (claim_C4 (Chain.mk "A" [Chain.mk "B" [Chain.mk "C" [], Chain.mk "D" []]])).2.2
    (by decide)⟩

/-- Claim C2 counterexample: with candidates [""] and utterance " x" the
tracked maximum-score candidate is the empty string with score 1.25 > 1.0,
yet resolve returns NoMatch — Python's "if not name" treats the selected
empty-string candidate as falsy. -/
theorem claim_C2_counterexample :
    extract_name " x" [""] = none ∧ 1 < combined_amount (split_word " x") "" :=
  ⟨rfl, by decide⟩

/-- Claim C2 (amended): resolve tracks the maximum combined score under a
linear scan in candidate order, ties keeping the first-seen maximum; when the
maximum is at most 1.0 it returns NoMatch, and when the maximum exceeds 1.0 it
returns the first candidate attaining the maximum — unless that candidate is
the empty string, in which case it returns NoMatch as well. -/
theorem claim_C2 (utterance : String) (names : List String) :
    ((names.map (combined_amount (split_word utterance))).foldl max 0 ≤ 1 →
      extract_name utterance names = none)
    ∧ (1 < (names.map (combined_amount (split_word utterance))).foldl max 0 →
      extract_name utterance names
        = (names.find? (fun n => decide
              ((names.map (combined_amount (split_word utterance))).foldl max 0
                ≤ combined_amount (split_word utterance) n))).bind
            (fun n => if n = "" then none else some n)) := by
  constructor
  · intro hM
    rw [extract_name, pick_foldl_zero]
    cases hfind : names.find? (fun n =>
        decide ((0 : ℚ) < combined_amount (split_word utterance) n)
        && decide ((names.map (combined_amount (split_word utterance))).foldl max 0
          ≤ combined_amount (split_word utterance) n)) with
    | none => rfl
    | some n =>
      have hmem := List.mem_of_find?_eq_some hfind
      have hle : combined_amount (split_word utterance) n ≤ 1 :=
        le_trans (foldl_max_le_elem _ 0 _
          (List.mem_map_of_mem (combined_amount (split_word utterance)) hmem)) hM
      show (if n = "" ∨ combined_amount (split_word utterance) n ≤ 1
          then none else some n) = none
      rw [if_pos (Or.inr hle)]
  · intro hM
    rw [extract_name, pick_foldl_zero]
    have hcong : names.find? (fun n =>
        decide ((0 : ℚ) < combined_amount (split_word utterance) n)
        && decide ((names.map (combined_amount (split_word utterance))).foldl max 0
          ≤ combined_amount (split_word utterance) n))
      = names.find? (fun n => decide
          ((names.map (combined_amount (split_word utterance))).foldl max 0
            ≤ combined_amount (split_word utterance) n)) := by
      apply find?_congr_all
      intro x hx
      by_cases hMx : (names.map (combined_amount (split_word utterance))).foldl max 0
          ≤ combined_amount (split_word utterance) x
      · have h0 : (0 : ℚ) < combined_amount (split_word utterance) x :=
          lt_of_lt_of_le (lt_trans zero_lt_one hM) hMx
        rw [decide_eq_true h0, Bool.true_and]
      · rw [decide_eq_false hMx, Bool.and_false]
    rw [hcong]
    rcases foldl_max_attained (names.map (combined_amount (split_word utterance))) 0
      with hat | hat
    · rw [hat] at hM
      exact absurd hM (by norm_num)
    · obtain ⟨n0, hn0, hfn0⟩ := List.mem_map.mp hat
      cases hfind : names.find? (fun n => decide
          ((names.map (combined_amount (split_word utterance))).foldl max 0
            ≤ combined_amount (split_word utterance) n)) with
      | none =>
        have hn := List.find?_eq_none.mp hfind n0 hn0
        simp only [decide_eq_true_eq] at hn
        exact absurd (le_of_eq hfn0.symm) hn
      | some m =>
        have hpm := List.find?_some hfind
        simp only [decide_eq_true_eq] at hpm
        show (if m = "" ∨ combined_amount (split_word utterance) m ≤ 1
            then none else some m)
          = if m = "" then none else some m
        by_cases hm : m = ""
        · rw [if_pos (Or.inl hm), if_pos hm]
        · have hgt : ¬ combined_amount (split_word utterance) m ≤ 1 :=
            not_le.mpr (lt_of_lt_of_le hM hpm)
          rw [if_neg (fun hor => hor.elim hm hgt), if_neg hm]

theorem claim_C2_witness : extract_name "pikachu" ["pikachu"] = some "pikachu" := by
  have h := (claim_C2 "pikachu" ["pikachu"]).2 (by decide)
  rw [h]
  rfl

/-- Claim C7 counterexample: the empty utterance does NOT always yield
NoMatch: against a candidate starting with a non-word character the empty
token of the split matches its empty first word with ratio 1.0, and resolve
returns that candidate. -/
theorem claim_C7_counterexample : extract_name "" ["!"] = some "!" := rfl

/-- Claim C7 (amended): resolve always returns a value — the scan's word
index never leaves bounds, so the IndexError branch is unreachable, and any
returned name is one of the candidates; the empty utterance yields NoMatch
for every candidate list in which each candidate, and each of its
hyphen-separated sub-names, has a non-empty first word-token. -/
theorem claim_C7 :
    (∀ (toks : List String) (name : String),
        scanO toks (split_word name) 0 = some (alike_amount toks name))
      ∧ (∀ (utterance : String) (names : List String) (n : String),
          extract_name utterance names = some n → n ∈ names)
      ∧ (∀ names : List String,
          (∀ n ∈ names, (split_word n).head? ≠ some ""
            ∧ ∀ sub ∈ splitHyphen n, (split_word sub).head? ≠ some "") →
          extract_name "" names = none) := by
  refine ⟨scanO_alike, ?_, ?_⟩
  · intro u names n h
    rw [extract_name] at h
    cases hfold : List.foldl (pickStep (split_word u)) (none, 0) names with
    | mk fst snd =>
      rw [hfold] at h
      cases fst with
      | none =>
        replace h : (none : Option String) = some n := h
        exact Option.noConfusion h
      | some m =>
        replace h : (if m = "" ∨ snd ≤ 1 then none else some m) = some n := h
        by_cases hc : m = "" ∨ snd ≤ 1
        · rw [if_pos hc] at h
          exact Option.noConfusion h
        · rw [if_neg hc] at h
          have hmn : m = n := Option.some.inj h
          have hmem := pick_foldl_mem (split_word u) names (none, 0) m (by rw [hfold])
          rcases hmem with h1 | h1
          · replace h1 : (none : Option String) = some m := h1
            exact Option.noConfusion h1
          · exact hmn ▸ h1
  · intro names h
    rw [extract_name]
    have hz : ∀ m ∈ names, combined_amount (split_word "") m
        ≤ ((none : Option String), (0 : ℚ)).2 := by
      intro m hm
      have hc := combined_amount_empty_utterance m (h m hm).1 (h m hm).2
      rw [hc]
    rw [foldl_pick_stable (split_word "") names (none, 0) hz]

theorem claim_C7_witness :
    extract_name "" ["pikachu"] = none
      ∧ scanO ["hello"] (split_word "pikachu") 0
          = some (alike_amount ["hello"] "pikachu") :=
  ⟨claim_C7.2.2 ["pikachu"] (by decide), claim_C7.1 ["hello"] "pikachu"⟩

/-- Claim C10 counterexample: the bound "combined score at most 1.25 times the
candidate's word count" fails: the candidate "a--b" has two word-tokens, but
against the utterance " a b" its combined score is 2.75 > 2.5, because the
empty sub-name produced by the consecutive hyphens earns a bonus of its own
from the empty leading token of the utterance split. -/
theorem claim_C10_counterexample :
    combined_amount (split_word " a b") "a--b" = 11/4
      ∧ (split_word "a--b").length = 2
      ∧ (5/4 : ℚ) * ((split_word "a--b").length : ℚ)
          < combined_amount (split_word " a b") "a--b" :=
  ⟨by decide, rfl, by decide⟩

/-- Claim C10 (amended): a hyphen-free candidate's combined score is exactly
1.25 times its base alignment score; every candidate's combined score is at
most its word count plus 0.25 times the total word count of its
hyphen-separated sub-names (which is 1.25 times the word count except for
degenerate hyphen patterns); and a single-word hyphen-free candidate is
accepted only when some utterance token has similarity ratio above 0.8. -/
theorem claim_C10 (utterance name : String) :
    (¬ '-' ∈ name.data → combined_amount (split_word utterance) name
        = (5/4 : ℚ) * alike_amount (split_word utterance) name)
      ∧ combined_amount (split_word utterance) name
          ≤ ((split_word name).length : ℚ)
            + (1/4 : ℚ) * ((splitHyphen name).map
                (fun sub => ((split_word sub).length : ℚ))).sum
      ∧ (¬ '-' ∈ name.data → (split_word name).length = 1 →
          1 < combined_amount (split_word utterance) name →
          ∃ tok ∈ split_word utterance, (4/5 : ℚ) < ratioQ name tok) := by
  refine ⟨?_, ?_, ?_⟩
  · intro hh
    rw [combined_amount, quarter_eq, splitHyphen_no_hyphen name hh]
    simp only [List.map_cons, List.map_nil, List.sum_cons, List.sum_nil, add_zero]
    ring
  · rw [combined_amount, quarter_eq]
    have h1 : alike_amount (split_word utterance) name
        ≤ ((split_word name).length : ℚ) := alike_amount_le _ _
    have h2 : ((splitHyphen name).map
          (fun n => alike_amount (split_word utterance) n)).sum
        ≤ ((splitHyphen name).map (fun sub => ((split_word sub).length : ℚ))).sum := by
      apply List.sum_le_sum
      intro sub hsub
      exact alike_amount_le _ _
    linarith
  · intro hh hlen hgt
    have heq : combined_amount (split_word utterance) name
        = (5/4 : ℚ) * alike_amount (split_word utterance) name := by
      rw [combined_amount, quarter_eq, splitHyphen_no_hyphen name hh]
      simp only [List.map_cons, List.map_nil, List.sum_cons, List.sum_nil, add_zero]
      ring
    rw [heq] at hgt
    have halike : (4/5 : ℚ) < alike_amount (split_word utterance) name := by linarith
    have hsw : split_word name = [name] := split_word_length_one name hlen
    have hscan : scanO (split_word utterance) [name] 0
        = some (alike_amount (split_word utterance) name) := by
      rw [← hsw]
      exact scanO_alike _ _
    rcases scanO_singleton (split_word utterance) name _ hscan
      with h0 | ⟨tok, htok, heqr, hbar⟩
    · rw [h0] at halike
      norm_num at halike
    · refine ⟨tok, htok, ?_⟩
      rw [← heqr]
      exact halike

theorem claim_C10_witness :
    combined_amount (split_word "pikachu") "pikachu"
        = (5/4 : ℚ) * alike_amount (split_word "pikachu") "pikachu"
      ∧ ∃ tok ∈ split_word "pikachu", (4/5 : ℚ) < ratioQ "pikachu" tok := by
  have h := claim_C10 "pikachu" "pikachu"
  exact ⟨h.1 (by decide), h.2.2 (by decide) (by decide) (by decide)⟩

end PokemonSkill
